import Mathlib

/-!
InternTest: word diff and version store

A shallow embedding of the backend of the content-versioning app:

* `backend/utils/getdiff.js`  : `getWordDiff`
* `backend/routes/index.js`   : `toWords`, `POST /save-version`, `GET /versions`,
  `DELETE /version/:id`
* `backend/models/version.js` : `VersionSchema`

JavaScript strings are lists of characters.  The MongoDB collection is the list of
its documents in insertion (natural) order.  The values the handlers obtain from
their surroundings (the clock, freshly generated ObjectIds, and the order in which the
store returns records of equal sort key) are explicit inputs.
-/

namespace InternTest

/-! ## Strings -/

/-- A JavaScript string. -/
abbrev JsString := List Char

/-- The characters matched by the regular expression class `\s` and stripped by
`String.prototype.trim` (ECMAScript WhiteSpace and LineTerminator). -/
def isWhiteSpace (c : Char) : Bool :=
  let n := c.toNat
  n == 0x09 || n == 0x0A || n == 0x0B || n == 0x0C || n == 0x0D || n == 0x20 ||
  n == 0xA0 || n == 0x1680 || (0x2000 ≤ n && n ≤ 0x200A) || n == 0x2028 ||
  n == 0x2029 || n == 0x202F || n == 0x205F || n == 0x3000 || n == 0xFEFF

/-- Leading part of `trim`: drop white space from the front. -/
def trimStart : JsString → JsString
  | [] => []
  | c :: rest => if isWhiteSpace c then trimStart rest else c :: rest

/-- Trailing part of `trim`: drop white space from the back. -/
def trimEnd : JsString → JsString
  | [] => []
  | c :: rest =>
    match trimEnd rest with
    | [] => if isWhiteSpace c then [] else [c]
    | r => c :: r

/-- `text.trim()`. -/
def trim (s : JsString) : JsString := trimEnd (trimStart s)

/-- Worker of `split(/\s+/)`.  The flag tells that the previous character belonged to a
separator match, so that a maximal run of white space is one separator.  The head of the
result is the piece being read. -/
def splitGo : Bool → JsString → List JsString
  | _, [] => [[]]
  | inSep, c :: rest =>
    if isWhiteSpace c then
      if inSep then splitGo true rest else [] :: splitGo true rest
    else
      match splitGo false rest with
      | [] => [[c]]
      | p :: ps => (c :: p) :: ps

/-- `s.split(/\s+/)`: the pieces between the maximal runs of white space.  The empty string
gives one empty piece; white space at either end gives an empty piece there. -/
def split (s : JsString) : List JsString := splitGo false s

/-- `words.includes(w)`. -/
def includes (words : List JsString) (w : JsString) : Bool := words.contains w

/-- `Boolean(w)` for a string `w`: the empty string is the only falsy string. -/
def truthy (w : JsString) : Bool := !w.isEmpty

/-! ## `backend/utils/getdiff.js` -/

/-- The object `{ added, removed }`. -/
structure WordDiff where
  added : List JsString
  removed : List JsString
deriving DecidableEq, Repr

/-- `getWordDiff(oldText, newText)`. -/
def getWordDiff (oldText newText : JsString) : WordDiff :=
  let oldWords := split (trim oldText)
  let newWords := split (trim newText)
  let added := newWords.filter (fun w => !includes oldWords w)
  let removed := oldWords.filter (fun w => !includes newWords w)
  { added := added, removed := removed }

/-! ## Tokens, as the specification words them -/

/-- Worker of `tokens`: `cur` is the run of non-white-space characters read so far,
latest character first. -/
def tokensGo (cur : JsString) : JsString → List JsString
  | [] => if cur.isEmpty then [] else [cur.reverse]
  | c :: rest =>
    if isWhiteSpace c then
      if cur.isEmpty then tokensGo [] rest else cur.reverse :: tokensGo [] rest
    else tokensGo (c :: cur) rest

/-- The token list of a text in the words of the specification: its maximal runs of
non-white-space characters, in order.  Written independently of `split`. -/
def tokens (s : JsString) : List JsString := tokensGo [] s

/-! ## `backend/routes/index.js`: tokenizer -/

/-- `toWords(text)`: `text.trim().split(/\s+/).filter(Boolean)`. -/
def toWords (text : JsString) : List JsString :=
  (split (trim text)).filter truthy

/-! ## Clock and timestamp -/

/-- A `Date`, by its UTC calendar fields. -/
structure Date where
  year : Nat
  month : Nat
  day : Nat
  hours : Nat
  minutes : Nat
  seconds : Nat
  ms : Nat
deriving DecidableEq, Repr

/-- Calendar fields in range, with a year that `toISOString` prints with four digits. -/
def Date.Valid (d : Date) : Prop :=
  d.year ≤ 9999 ∧ 1 ≤ d.month ∧ d.month ≤ 12 ∧ 1 ≤ d.day ∧ d.day ≤ 31 ∧
  d.hours ≤ 23 ∧ d.minutes ≤ 59 ∧ d.seconds ≤ 59 ∧ d.ms ≤ 999

instance (d : Date) : Decidable d.Valid := by
  unfold Date.Valid; infer_instance

/-- Time order of two dates restricted to the fields down to the minute: `a` lies in a
strictly earlier minute than `b`. -/
def Date.minuteLt (a b : Date) : Prop :=
  a.year < b.year ∨ (a.year = b.year ∧
    (a.month < b.month ∨ (a.month = b.month ∧
      (a.day < b.day ∨ (a.day = b.day ∧
        (a.hours < b.hours ∨ (a.hours = b.hours ∧ a.minutes < b.minutes)))))))

instance (a b : Date) : Decidable (a.minuteLt b) := by
  unfold Date.minuteLt; infer_instance

/-- The two dates lie in the same minute. -/
def Date.sameMinute (a b : Date) : Prop :=
  a.year = b.year ∧ a.month = b.month ∧ a.day = b.day ∧ a.hours = b.hours ∧
  a.minutes = b.minutes

instance (a b : Date) : Decidable (a.sameMinute b) := by
  unfold Date.sameMinute; infer_instance

/-- Time order of two dates: `a` is not later than `b`. -/
def Date.le (a b : Date) : Prop :=
  a.minuteLt b ∨ (a.sameMinute b ∧
    (a.seconds < b.seconds ∨ (a.seconds = b.seconds ∧ a.ms ≤ b.ms)))

instance (a b : Date) : Decidable (a.le b) := by
  unfold Date.le; infer_instance

/-- The decimal digit for `n % 10`. -/
def digitChar (n : Nat) : Char :=
  match n % 10 with
  | 0 => '0' | 1 => '1' | 2 => '2' | 3 => '3' | 4 => '4'
  | 5 => '5' | 6 => '6' | 7 => '7' | 8 => '8' | _ => '9'

/-- Two decimal digits, zero padded. -/
def pad2 (n : Nat) : JsString := [digitChar (n / 10), digitChar n]

/-- Three decimal digits, zero padded. -/
def pad3 (n : Nat) : JsString := digitChar (n / 100) :: pad2 n

/-- Four decimal digits, zero padded. -/
def pad4 (n : Nat) : JsString := pad2 (n / 100) ++ pad2 n

/-- `date.toISOString()`: `YYYY-MM-DDTHH:mm:ss.sssZ`. -/
def toISOString (d : Date) : JsString :=
  pad4 d.year ++ '-' :: pad2 d.month ++ '-' :: pad2 d.day ++ 'T' :: pad2 d.hours ++
    ':' :: pad2 d.minutes ++ ':' :: pad2 d.seconds ++ '.' :: pad3 d.ms ++ ['Z']

/-- `s.slice(a, b)` for indices within `0 ≤ a ≤ b`. -/
def slice (s : JsString) (a b : Nat) : JsString := (s.drop a).take (b - a)

/-- `s.replace(c, r)` for one-character strings `c` and `r`: the first occurrence only. -/
def replaceFirst (c r : Char) : JsString → JsString
  | [] => []
  | x :: rest => if x = c then r :: rest else x :: replaceFirst c r rest

/-- The stored timestamp: `new Date().toISOString().slice(0, 16).replace("T", " ")`. -/
def timestampOf (now : Date) : JsString :=
  replaceFirst 'T' (Char.ofNat 32) (slice (toISOString now) 0 16)

/-- Strict order of two strings as the store sorts string fields: character by character,
a proper initial part before the longer string. -/
def strLt : JsString → JsString → Bool
  | _, [] => false
  | [], _ :: _ => true
  | a :: as, b :: bs => a.toNat < b.toNat || (a.toNat == b.toNat && strLt as bs)

/-! ## ObjectIds -/

/-- A BSON ObjectId, by the number its twelve bytes encode. -/
abbrev ObjectId := Nat

/-- The lower-case hexadecimal digit for `n % 16`. -/
def hexDigit (n : Nat) : Char :=
  match n % 16 with
  | 0 => '0' | 1 => '1' | 2 => '2' | 3 => '3' | 4 => '4' | 5 => '5' | 6 => '6' | 7 => '7'
  | 8 => '8' | 9 => '9' | 10 => 'a' | 11 => 'b' | 12 => 'c' | 13 => 'd' | 14 => 'e'
  | _ => 'f'

/-- The lowest `w` hexadecimal digits of `n`, most significant first. -/
def hexN : Nat → Nat → JsString
  | 0, _ => []
  | w + 1, n => hexN w (n / 16) ++ [hexDigit n]

/-- `objectId.toString()`: 24 lower-case hexadecimal digits. -/
def ObjectId.toHex (o : ObjectId) : JsString := hexN 24 o

/-- The value of a hexadecimal digit of either case. -/
def hexVal (c : Char) : Option Nat :=
  let n := c.toNat
  if 48 ≤ n ∧ n ≤ 57 then some (n - 48)
  else if 97 ≤ n ∧ n ≤ 102 then some (n - 87)
  else if 65 ≤ n ∧ n ≤ 70 then some (n - 55)
  else none

/-- Read hexadecimal digits onto an accumulator; `none` at a character that is no digit. -/
def readHex : Nat → JsString → Option Nat
  | acc, [] => some acc
  | acc, c :: rest =>
    match hexVal c with
    | none => none
    | some v => readHex (acc * 16 + v) rest

/-- The cast the store applies to the argument of `findByIdAndDelete`: a string of 24
hexadecimal digits is the ObjectId it spells, any other string is a cast error. -/
def castObjectId (s : JsString) : Option ObjectId :=
  if s.length = 24 then readHex 0 s else none

/-! ## `backend/models/version.js` -/

/-- A document of the `Version` collection: the schema fields and the `_id` the store
assigns to every document. -/
structure Version where
  _id : ObjectId
  id : JsString
  timestamp : JsString
  addedWords : List JsString
  removedWords : List JsString
  oldLength : Nat
  newLength : Nat
  previousText : JsString
  newText : JsString
deriving DecidableEq, Repr

/-- The collection, in insertion order. -/
abbrev Store := List Version

/-- The order in which the store returns two records of equal sort key.  The handlers sort
on `timestamp` alone and name no second key, so this order is not theirs: it is an input.
`ties v w` tells, for `v` met before `w` in the collection, that `v` is returned first. -/
abbrev TieOrder := Version → Version → Bool

/-- The store returns records of equal key in the order of the collection. -/
def naturalOrder : TieOrder := fun _ _ => true

/-- The store returns records of equal key against the order of the collection. -/
def reverseOrder : TieOrder := fun _ _ => false

/-- Put a document into a list sorted by `timestamp` descending: behind the documents of
greater timestamp, before those of smaller timestamp, and among those of equal timestamp
where `ties` puts it. -/
def insertDesc (ties : TieOrder) (v : Version) : List Version → List Version
  | [] => [v]
  | w :: rest =>
    if strLt v.timestamp w.timestamp then w :: insertDesc ties v rest
    else if strLt w.timestamp v.timestamp then v :: w :: rest
    else if ties v w then v :: w :: rest
    else w :: insertDesc ties v rest

/-- `.sort({ timestamp: -1 })`: by `timestamp` descending, `timestamp` being the only key;
the order of documents with equal timestamps is the one of `ties`. -/
def sortByTimestampDesc (ties : TieOrder) : List Version → List Version
  | [] => []
  | v :: rest => insertDesc ties v (sortByTimestampDesc ties rest)

/-- `VersionModel.findOne().sort({ timestamp: -1 })`. -/
def findLatest (ties : TieOrder) (s : Store) : Option Version :=
  (sortByTimestampDesc ties s).head?

/-- `VersionModel.findByIdAndDelete(o)` on a cast identifier: the first document whose `_id`
is `o`, and the collection without it. -/
def findByIdAndDelete (o : ObjectId) (s : Store) : Option Version × Store :=
  match s.find? (fun v => v._id == o) with
  | none => (none, s)
  | some v => (some v, s.eraseP (fun v => v._id == o))

/-! ## `backend/routes/index.js`: handlers -/

/-- The field `newText` of a request body, within what the contract admits: a string, or
nothing (`null`, or no such field). -/
inductive BodyField where
  | missing
  | null
  | str (s : JsString)
deriving DecidableEq, Repr

/-- What a handler answers. -/
inductive Response where
  | ok (data : Version)
  | badRequest
  | notFound
  | serverError
deriving DecidableEq, Repr

/-- The HTTP status of a response. -/
def Response.status : Response → Nat
  | .ok _ => 200
  | .badRequest => 400
  | .notFound => 404
  | .serverError => 500

/-- What a save takes from its surroundings: the clock, the ObjectId made for the field `id`
and the ObjectId the store makes for `_id`. -/
structure SaveEnv where
  now : Date
  summaryId : ObjectId
  docId : ObjectId
deriving DecidableEq, Repr

/-- `!newText`. -/
def BodyField.falsy : BodyField → Bool
  | .missing => true
  | .null => true
  | .str s => s.isEmpty

/-- `POST /save-version`. -/
def saveVersion (ties : TieOrder) (env : SaveEnv) (body : BodyField) (s : Store) :
    Response × Store :=
  match body with
  | .missing => (.badRequest, s)
  | .null => (.badRequest, s)
  | .str newText =>
    if (BodyField.str newText).falsy then (.badRequest, s)
    else
      let last := findLatest ties s
      let previousText := match last with
        | some l => l.newText
        | none => []
      let oldWords := toWords previousText
      let newWords := toWords newText
      let addedWords := newWords.filter (fun w => !includes oldWords w)
      let removedWords := oldWords.filter (fun w => !includes newWords w)
      let saved : Version :=
        { _id := env.docId
          id := ObjectId.toHex env.summaryId
          timestamp := timestampOf env.now
          addedWords := addedWords
          removedWords := removedWords
          oldLength := oldWords.length
          newLength := newWords.length
          previousText := previousText
          newText := newText }
      (.ok saved, s ++ [saved])

/-- `GET /versions`: the `data` of the answer. -/
def listVersions (ties : TieOrder) (s : Store) : List Version := sortByTimestampDesc ties s

/-- `DELETE /version/:id`. -/
def deleteVersion (param : JsString) (s : Store) : Response × Store :=
  match castObjectId param with
  | none => (.serverError, s)
  | some o =>
    match findByIdAndDelete o s with
    | (none, s') => (.notFound, s')
    | (some v, s') => (.ok v, s')

/-! ## The record of a save, named -/

/-- The baseline of a save: the `newText` of the latest version, or the empty string. -/
def baseline (ties : TieOrder) (s : Store) : JsString :=
  match findLatest ties s with
  | some l => l.newText
  | none => []

/-- The record a save builds from a non-empty text. -/
def summaryOf (ties : TieOrder) (env : SaveEnv) (newText : JsString) (s : Store) : Version :=
  { _id := env.docId
    id := ObjectId.toHex env.summaryId
    timestamp := timestampOf env.now
    addedWords := (toWords newText).filter (fun w => !includes (toWords (baseline ties s)) w)
    removedWords := (toWords (baseline ties s)).filter (fun w => !includes (toWords newText) w)
    oldLength := (toWords (baseline ties s)).length
    newLength := (toWords newText).length
    previousText := baseline ties s
    newText := newText }

/-! ## Sample inputs -/

/-- A server time. -/
def clockA : Date := ⟨2025, 11, 4, 22, 37, 5, 120⟩

/-- A later server time in the minute of `clockA`. -/
def clockB : Date := ⟨2025, 11, 4, 22, 37, 48, 9⟩

/-- A server time in the minute after `clockA`. -/
def clockC : Date := ⟨2025, 11, 4, 22, 38, 2, 0⟩

/-- Surroundings of a save at `clockA`. -/
def envA : SaveEnv := ⟨clockA, 0x690a8f11c3a1b2d4e5f60001, 0x690a8f11c3a1b2d4e5f60002⟩

/-- Surroundings of a save at `clockB`. -/
def envB : SaveEnv := ⟨clockB, 0x690a8f3cc3a1b2d4e5f60003, 0x690a8f3cc3a1b2d4e5f60004⟩

/-- Surroundings of a save at `clockC`. -/
def envC : SaveEnv := ⟨clockC, 0x690a8f4ac3a1b2d4e5f60003, 0x690a8f4ac3a1b2d4e5f60004⟩

/-- The record of saving `hello` to the empty store at `clockA`. -/
def helloVersion : Version := summaryOf naturalOrder envA "hello".toList []

/-- The record of saving `hello world` after `helloVersion` at `clockB`. -/
def helloWorldVersion : Version :=
  summaryOf naturalOrder envB "hello world".toList [helloVersion]

/-! ## The tokenizer -/

theorem splitGo_ne_nil (b : Bool) (s : JsString) : splitGo b s ≠ [] := by
  induction s generalizing b with
  | nil => simp [splitGo]
  | cons c rest ih =>
    unfold splitGo
    by_cases hc : isWhiteSpace c = true
    · cases b <;> simp [hc, ih]
    · simp only [hc]
      cases h : splitGo false rest with
      | nil => simp
      | cons p ps => simp

theorem filter_truthy_splitGo_true (s : JsString) :
    (splitGo true s).filter truthy = (splitGo false s).filter truthy := by
  cases s with
  | nil => rfl
  | cons c rest =>
    by_cases hc : isWhiteSpace c = true
    · simp [splitGo, hc, truthy]
    · simp [splitGo, hc]

theorem tokensGo_eq_filter (s : JsString) : ∀ cur : JsString,
    tokensGo cur s =
      (match splitGo false s with
        | [] => [cur.reverse]
        | p :: ps => (cur.reverse ++ p) :: ps).filter truthy := by
  induction s with
  | nil =>
    intro cur
    cases cur <;> simp [tokensGo, splitGo, truthy]
  | cons c rest ih =>
    intro cur
    by_cases hc : isWhiteSpace c = true
    · have h0 := ih []
      have hne := splitGo_ne_nil false rest
      cases hsp : splitGo false rest with
      | nil => exact absurd hsp hne
      | cons p ps =>
        rw [hsp] at h0
        have h1 : tokensGo [] rest = (splitGo true rest).filter truthy := by
          rw [filter_truthy_splitGo_true, hsp, h0]; simp
        cases cur with
        | nil => simp [tokensGo, splitGo, hc, h1, truthy]
        | cons x xs => simp [tokensGo, splitGo, hc, h1, truthy]
    · have h0 := ih (c :: cur)
      cases hsp : splitGo false rest with
      | nil => exact absurd hsp (splitGo_ne_nil false rest)
      | cons p ps =>
        rw [hsp] at h0
        simp only [tokensGo, splitGo, hc, hsp, h0]
        simp

theorem tokens_eq_filter_split (s : JsString) : tokens s = (split s).filter truthy := by
  unfold tokens split
  rw [tokensGo_eq_filter]
  cases h : splitGo false s with
  | nil => exact absurd h (splitGo_ne_nil false s)
  | cons p ps => simp

theorem tokens_trimStart (s : JsString) : tokens (trimStart s) = tokens s := by
  induction s with
  | nil => rfl
  | cons c rest ih =>
    by_cases hc : isWhiteSpace c = true
    · simp only [trimStart, hc, if_true, ih]
      simp [tokens, tokensGo, hc]
    · simp [trimStart, hc]

theorem tokensGo_cons (cur : JsString) (c : Char) (rest : JsString) :
    tokensGo cur (c :: rest) =
      if isWhiteSpace c then
        if cur.isEmpty then tokensGo [] rest else cur.reverse :: tokensGo [] rest
      else tokensGo (c :: cur) rest := rfl

theorem tokensGo_trimEnd (s : JsString) : ∀ cur : JsString,
    tokensGo cur (trimEnd s) = tokensGo cur s := by
  induction s with
  | nil => intro cur; rfl
  | cons c rest ih =>
    intro cur
    cases hr : trimEnd rest with
    | nil =>
      rw [hr] at ih
      by_cases hc : isWhiteSpace c = true
      · have h0 := ih []
        simp only [tokensGo] at h0
        simp only [trimEnd, hr, hc, if_true, tokensGo]
        rw [← h0]
        cases cur <;> simp
      · have h0 := ih (c :: cur)
        simp only [trimEnd, hr, hc, tokensGo]
        simpa [tokensGo] using h0
    | cons x xs =>
      rw [hr] at ih
      have ht : trimEnd (c :: rest) = c :: x :: xs := by simp [trimEnd, hr]
      rw [ht, tokensGo_cons cur c (x :: xs), tokensGo_cons cur c rest]
      simp only [ih]

theorem tokens_trim (s : JsString) : tokens (trim s) = tokens s := by
  unfold trim
  have h := tokensGo_trimEnd (trimStart s) []
  unfold tokens at *
  rw [h]
  exact tokens_trimStart s

/-- The tokenizer of the route is the token list of the specification. -/
theorem toWords_eq_tokens (s : JsString) : toWords s = tokens s := by
  unfold toWords
  rw [← tokens_eq_filter_split, tokens_trim]

theorem trimEnd_pieces (s : JsString) :
    [] ∉ (splitGo false (trimEnd s)).tail ∧
      (trimEnd s ≠ [] → [] ∉ splitGo true (trimEnd s)) := by
  induction s with
  | nil => simp [trimEnd, splitGo]
  | cons c rest ih =>
    cases hr : trimEnd rest with
    | nil =>
      by_cases hc : isWhiteSpace c = true
      · simp [trimEnd, hr, hc, splitGo]
      · simp [trimEnd, hr, hc, splitGo]
    | cons x xs =>
      rw [hr] at ih
      obtain ⟨ih1, ih2⟩ := ih
      have ih2 := ih2 (by simp)
      by_cases hc : isWhiteSpace c = true
      · simp only [trimEnd, hr]
        constructor
        · simpa [splitGo, hc] using ih2
        · intro _
          simpa [splitGo, hc] using ih2
      · simp only [trimEnd, hr]
        have hne := splitGo_ne_nil false (x :: xs)
        cases hsp : splitGo false (x :: xs) with
        | nil => exact absurd hsp hne
        | cons p ps =>
          rw [hsp] at ih1
          have hps : [] ∉ ps := by simpa using ih1
          constructor
          · rw [splitGo]; simp only [hc, hsp]; simpa using hps
          · intro _
            rw [splitGo]; simp only [hc, hsp]
            simp only [Bool.false_eq_true, if_false, List.mem_cons, not_or]
            exact ⟨by simp, hps⟩

theorem trimEnd_cons_of_not_ws (c : Char) (rest : JsString) (hc : isWhiteSpace c = false) :
    trimEnd (c :: rest) = c :: trimEnd rest := by
  cases hr : trimEnd rest <;> simp [trimEnd, hr, hc]

theorem trimStart_head (s : JsString) :
    trimStart s = [] ∨ ∃ c rest, trimStart s = c :: rest ∧ isWhiteSpace c = false := by
  induction s with
  | nil => left; rfl
  | cons c rest ih =>
    by_cases hc : isWhiteSpace c = true
    · simpa [trimStart, hc] using ih
    · right; exact ⟨c, rest, by simp [trimStart, hc], by simpa using hc⟩

/-- The pieces of a trimmed text: one empty piece when the text has no token, the token
list otherwise. -/
theorem split_trim (s : JsString) :
    split (trim s) = if tokens s = [] then [[]] else tokens s := by
  have htok : tokens s = (split (trim s)).filter truthy := by
    rw [← tokens_eq_filter_split, tokens_trim]
  rcases trimStart_head s with h | ⟨c, rest, h, hc⟩
  · have ht : trim s = [] := by simp [trim, h, trimEnd]
    rw [htok, ht]
    simp [split, splitGo, truthy]
  · have ht : trim s = c :: trimEnd rest := by
      simp [trim, h, trimEnd_cons_of_not_ws c rest hc]
    have hp := (trimEnd_pieces rest).1
    have hall : (split (trim s)).filter truthy = split (trim s) := by
      rw [ht]
      unfold split
      rw [splitGo]
      simp only [hc]
      cases hsp : splitGo false (trimEnd rest) with
      | nil => simp [truthy]
      | cons p ps =>
        rw [hsp] at hp
        simp only [Bool.false_eq_true, if_false]
        rw [List.filter_eq_self]
        intro w hw
        rcases List.mem_cons.1 hw with rfl | hw
        · simp [truthy]
        · have : w ≠ [] := fun e => hp (by simpa [e] using hw)
          cases w with
          | nil => exact absurd rfl this
          | cons _ _ => simp [truthy]
    have hne : split (trim s) ≠ [] := splitGo_ne_nil false _
    rw [htok, hall]
    simp [hne]

theorem includes_iff (l : List JsString) (w : JsString) : includes l w = true ↔ w ∈ l := by
  simp [includes]

theorem getWordDiff_added (A B : JsString) :
    (getWordDiff A B).added =
      (split (trim B)).filter (fun w => !includes (split (trim A)) w) := rfl

theorem getWordDiff_removed (A B : JsString) :
    (getWordDiff A B).removed =
      (split (trim A)).filter (fun w => !includes (split (trim B)) w) := rfl

theorem tokens_subset_split_trim (A : JsString) : ∀ w ∈ tokens A, w ∈ split (trim A) := by
  intro w hw
  rw [split_trim]
  split
  · rename_i h; rw [h] at hw; simp at hw
  · exact hw

theorem filter_not_includes_mem (l m : List JsString) (w : JsString)
    (h : w ∈ l.filter (fun x => !includes m x)) : w ∉ m := by
  have := (List.mem_filter.1 h).2
  intro hm
  rw [(includes_iff m w).2 hm] at this
  simp at this

/-- Claim C7: no word of `getWordDiff(A, B).added` is a token of `A`, and no word of
`getWordDiff(A, B).removed` is a token of `B`. -/
theorem getWordDiff_disjoint (A B : JsString) :
    (∀ w ∈ (getWordDiff A B).added, w ∉ tokens A) ∧
      (∀ w ∈ (getWordDiff A B).removed, w ∉ tokens B) := by
  constructor
  · intro w hw ht
    rw [getWordDiff_added] at hw
    exact filter_not_includes_mem _ _ w hw (tokens_subset_split_trim A w ht)
  · intro w hw ht
    rw [getWordDiff_removed] at hw
    exact filter_not_includes_mem _ _ w hw (tokens_subset_split_trim B w ht)

theorem getWordDiff_disjoint_witness :
    (getWordDiff "a b".toList "b c c".toList).added = ["c".toList, "c".toList] ∧
    (getWordDiff "a b".toList "b c c".toList).removed = ["a".toList] ∧
    (∀ w ∈ (getWordDiff "a b".toList "b c c".toList).added, w ∉ tokens "a b".toList) ∧
      (∀ w ∈ (getWordDiff "a b".toList "b c c".toList).removed, w ∉ tokens "b c c".toList) :=
  ⟨by decide, by decide, getWordDiff_disjoint "a b".toList "b c c".toList⟩

theorem filter_not_includes_eq_nil (l m : List JsString) (h : ∀ w ∈ l, w ∈ m) :
    l.filter (fun x => !includes m x) = [] := by
  rw [List.filter_eq_nil_iff]
  intro w hw
  simp [(includes_iff m w).2 (h w hw)]

theorem getWordDiff_same_words (A B : JsString) (h : ∀ w, w ∈ tokens A ↔ w ∈ tokens B) :
    getWordDiff A B = { added := [], removed := [] } := by
  have hsub : ∀ w, w ∈ split (trim A) ↔ w ∈ split (trim B) := by
    intro w
    rw [split_trim A, split_trim B]
    by_cases hA : tokens A = []
    · have hB : tokens B = [] := by
        apply List.eq_nil_iff_forall_not_mem.2
        intro x hx
        have := (h x).2 hx
        rw [hA] at this
        simp at this
      simp [hA, hB]
    · have hB : tokens B ≠ [] := by
        intro hB
        apply hA
        apply List.eq_nil_iff_forall_not_mem.2
        intro x hx
        have := (h x).1 hx
        rw [hB] at this
        simp at this
      simp [hA, hB, h w]
  have ha := filter_not_includes_eq_nil (split (trim B)) (split (trim A))
    (fun w hw => (hsub w).2 hw)
  have hr := filter_not_includes_eq_nil (split (trim A)) (split (trim B))
    (fun w hw => (hsub w).1 hw)
  show WordDiff.mk _ _ = _
  rw [ha, hr]

/-- Claim C10: `getWordDiff(A, A)` has no added and no removed word; so has `getWordDiff(A, B)`
whenever the token lists of `A` and `B` hold the same words. -/
theorem getWordDiff_no_change :
    (∀ A : JsString, getWordDiff A A = { added := [], removed := [] }) ∧
    (∀ A B : JsString, (∀ w, w ∈ tokens A ↔ w ∈ tokens B) →
      getWordDiff A B = { added := [], removed := [] }) :=
  ⟨fun A => getWordDiff_same_words A A (fun _ => Iff.rfl), getWordDiff_same_words⟩

theorem getWordDiff_no_change_witness :
    tokens "to be or not".toList ≠ tokens "not be to or or".toList ∧
    getWordDiff "to be or not".toList "not be to or or".toList = { added := [], removed := [] } ∧
    getWordDiff "".toList "".toList = { added := [], removed := [] } :=
  ⟨by decide,
   getWordDiff_no_change.2 "to be or not".toList "not be to or or".toList (by
     intro w
     have h1 : tokens "to be or not".toList =
         ["to".toList, "be".toList, "or".toList, "not".toList] := by decide
     have h2 : tokens "not be to or or".toList =
         ["not".toList, "be".toList, "to".toList, "or".toList, "or".toList] := by decide
     rw [h1, h2]
     simp only [List.mem_cons, List.mem_nil_iff, or_false]
     tauto),
   getWordDiff_no_change.1 "".toList⟩

/-- Claim C2: at the empty old text `getWordDiff` reports the empty string as a removed word, and
at the empty new text as an added word: the one piece of `"".split(/\s+/)` is not dropped. -/
theorem getWordDiff_empty_text_eval :
    getWordDiff "".toList "hello world".toList =
      { added := ["hello".toList, "world".toList], removed := ["".toList] } ∧
    getWordDiff "hello world".toList "".toList =
      { added := ["".toList], removed := ["hello".toList, "world".toList] } ∧
    tokens "".toList = [] ∧ toWords "".toList = [] := by
  decide

/-! ## Order of timestamps and the sort -/

theorem strLt_cons (a b : Char) (as bs : JsString) :
    strLt (a :: as) (b :: bs) = true ↔
      a.toNat < b.toNat ∨ (a.toNat = b.toNat ∧ strLt as bs = true) := by
  simp [strLt]

theorem strLt_irrefl (a : JsString) : strLt a a = false := by
  induction a with
  | nil => rfl
  | cons x xs ih =>
    rw [Bool.eq_false_iff]
    intro h
    rcases (strLt_cons x x xs xs).1 h with h | ⟨_, h⟩
    · omega
    · rw [ih] at h; exact Bool.noConfusion h

theorem strLt_asymm : ∀ a b : JsString, strLt a b = true → strLt b a = false := by
  intro a
  induction a with
  | nil => intro b h; cases b <;> simp_all [strLt]
  | cons x xs ih =>
    intro b h
    cases b with
    | nil => simp [strLt] at h
    | cons y ys =>
      rw [Bool.eq_false_iff]
      intro h2
      rcases (strLt_cons x y xs ys).1 h with h | ⟨he, h⟩
      · rcases (strLt_cons y x ys xs).1 h2 with h2 | ⟨he2, _⟩ <;> omega
      · rcases (strLt_cons y x ys xs).1 h2 with h2 | ⟨_, h2⟩
        · omega
        · rw [ih ys h] at h2; exact Bool.noConfusion h2

/-- Not-less is transitive: from `b ≤ a` and `c ≤ b`, `c ≤ a`. -/
theorem strLt_false_trans : ∀ a b c : JsString,
    strLt a b = false → strLt b c = false → strLt a c = false := by
  intro a
  induction a with
  | nil =>
    intro b c hab hbc
    cases b with
    | nil => exact hbc
    | cons y ys => simp [strLt] at hab
  | cons x xs ih =>
    intro b c hab hbc
    cases c with
    | nil => rfl
    | cons z zs =>
      cases b with
      | nil => simp [strLt] at hbc
      | cons y ys =>
        rw [Bool.eq_false_iff] at hab hbc ⊢
        rw [Ne, strLt_cons] at hab hbc ⊢
        intro h
        by_cases hxs : strLt xs ys = true
        · by_cases e1 : x.toNat = y.toNat
          · exact hab (Or.inr ⟨e1, hxs⟩)
          · rcases h with h | ⟨e, _⟩
            · apply hab; left
              by_contra hc
              apply hbc; left; omega
            · apply hab; left
              by_contra hc
              apply hbc; left; omega
        · by_cases hys : strLt ys zs = true
          · rcases h with h | ⟨e, _⟩
            · by_cases e2 : y.toNat = z.toNat
              · exact hbc (Or.inr ⟨e2, hys⟩)
              · by_contra
                by_cases h3 : y.toNat < z.toNat
                · exact hbc (Or.inl h3)
                · exact hab (Or.inl (by omega))
            · by_cases e2 : y.toNat = z.toNat
              · exact hbc (Or.inr ⟨e2, hys⟩)
              · by_cases h3 : y.toNat < z.toNat
                · exact hbc (Or.inl h3)
                · exact hab (Or.inl (by omega))
          · have hxz : strLt xs zs = false :=
              ih ys zs (by simpa using hxs) (by simpa using hys)
            rcases h with h | ⟨e, h⟩
            · by_cases h3 : y.toNat < z.toNat
              · exact hbc (Or.inl h3)
              · exact hab (Or.inl (by omega))
            · rw [hxz] at h; exact Bool.noConfusion h

theorem mem_insertDesc (ties : TieOrder) (v x : Version) (l : List Version) :
    x ∈ insertDesc ties v l ↔ x = v ∨ x ∈ l := by
  induction l with
  | nil => simp [insertDesc]
  | cons w rest ih =>
    unfold insertDesc
    split
    · simp only [List.mem_cons, ih]; tauto
    · split
      · simp
      · split
        · simp
        · simp only [List.mem_cons, ih]; tauto

theorem mem_sortByTimestampDesc (ties : TieOrder) (x : Version) (l : List Version) :
    x ∈ sortByTimestampDesc ties l ↔ x ∈ l := by
  induction l with
  | nil => simp [sortByTimestampDesc]
  | cons v rest ih => simp [sortByTimestampDesc, mem_insertDesc, ih]

theorem insertDesc_sorted (ties : TieOrder) (v : Version) (m : List Version)
    (hm : m.Pairwise (fun a b => strLt a.timestamp b.timestamp = false)) :
    (insertDesc ties v m).Pairwise (fun a b => strLt a.timestamp b.timestamp = false) := by
  induction m with
  | nil => simp [insertDesc]
  | cons w rest ih =>
    rw [List.pairwise_cons] at hm
    unfold insertDesc
    split
    · rename_i hlt
      rw [List.pairwise_cons]
      refine ⟨?_, ih hm.2⟩
      intro x hx
      rcases (mem_insertDesc ties v x rest).1 hx with rfl | hx
      · exact strLt_asymm _ _ hlt
      · exact hm.1 x hx
    · rename_i hnlt
      have hvw : strLt v.timestamp w.timestamp = false := by simpa using hnlt
      have hfront : (v :: w :: rest).Pairwise
          (fun a b => strLt a.timestamp b.timestamp = false) := by
        rw [List.pairwise_cons, List.pairwise_cons]
        refine ⟨?_, hm.1, hm.2⟩
        intro x hx
        rcases List.mem_cons.1 hx with rfl | hx
        · exact hvw
        · exact strLt_false_trans _ _ _ hvw (hm.1 x hx)
      split
      · exact hfront
      · rename_i hnwv
        split
        · exact hfront
        · rw [List.pairwise_cons]
          refine ⟨?_, ih hm.2⟩
          intro x hx
          rcases (mem_insertDesc ties v x rest).1 hx with rfl | hx
          · simpa using hnwv
          · exact hm.1 x hx

/-- The list is sorted by timestamp, descending, whatever the order of equal keys. -/
theorem sortByTimestampDesc_sorted (ties : TieOrder) (l : List Version) :
    (sortByTimestampDesc ties l).Pairwise
      (fun a b => strLt a.timestamp b.timestamp = false) := by
  induction l with
  | nil => simp [sortByTimestampDesc]
  | cons v rest ih => exact insertDesc_sorted ties v _ ih

theorem insertDesc_perm (ties : TieOrder) (v : Version) (m : List Version) :
    (insertDesc ties v m).Perm (v :: m) := by
  induction m with
  | nil => exact List.Perm.refl _
  | cons w rest ih =>
    unfold insertDesc
    split
    · exact (List.Perm.cons w ih).trans (List.Perm.swap v w rest)
    · split
      · exact List.Perm.refl _
      · split
        · exact List.Perm.refl _
        · exact (List.Perm.cons w ih).trans (List.Perm.swap v w rest)

/-- The list holds the records of the store, each as often as the store does. -/
theorem sortByTimestampDesc_perm (ties : TieOrder) (l : List Version) :
    (sortByTimestampDesc ties l).Perm l := by
  induction l with
  | nil => exact List.Perm.refl _
  | cons v rest ih => exact (insertDesc_perm ties v _).trans (List.Perm.cons v ih)

/-- The head of the sorted list has a greatest timestamp. -/
theorem head_sortByTimestampDesc (ties : TieOrder) (s : List Version) (u : Version)
    (h : (sortByTimestampDesc ties s).head? = some u) :
    u ∈ s ∧ ∀ w ∈ s, strLt u.timestamp w.timestamp = false := by
  have hs := sortByTimestampDesc_sorted ties s
  cases hl : sortByTimestampDesc ties s with
  | nil => rw [hl] at h; simp at h
  | cons a rest =>
    rw [hl] at h hs
    have hau : a = u := by simpa using h
    subst hau
    have hmem : ∀ x, x ∈ s ↔ x ∈ a :: rest := by
      intro x; rw [← hl, mem_sortByTimestampDesc]
    refine ⟨(hmem a).2 (List.mem_cons_self _ _), ?_⟩
    intro w hw
    rcases List.mem_cons.1 ((hmem w).1 hw) with rfl | hw
    · exact strLt_irrefl _
    · exact (List.pairwise_cons.1 hs).1 w hw

theorem findLatest_eq_none (ties : TieOrder) (s : Store) : findLatest ties s = none ↔ s = [] := by
  unfold findLatest
  constructor
  · intro h
    apply List.eq_nil_iff_forall_not_mem.2
    intro x hx
    have := (mem_sortByTimestampDesc ties x s).2 hx
    cases hl : sortByTimestampDesc ties s with
    | nil => rw [hl] at this; simp at this
    | cons a b => rw [hl] at h; simp at h
  · intro h; subst h; rfl

/-! ## `POST /save-version` -/

theorem saveVersion_str (ties : TieOrder) (env : SaveEnv) (t : JsString) (s : Store) (ht : t ≠ []) :
    saveVersion ties env (.str t) s = (.ok (summaryOf ties env t s), s ++ [summaryOf ties env t s]) := by
  cases t with
  | nil => exact absurd rfl ht
  | cons c cs =>
    simp only [saveVersion, BodyField.falsy, List.isEmpty_cons, Bool.false_eq_true, if_false,
      summaryOf, baseline]

theorem filter_not_includes_eq (l m : List JsString) :
    l.filter (fun w => !includes m w) = l.filter (fun w => decide (w ∉ m)) := by
  apply List.filter_congr
  intro w _
  by_cases h : w ∈ m
  · simp [(includes_iff m w).2 h, h]
  · have : includes m w = false := by
      rw [Bool.eq_false_iff]; intro hc; exact h ((includes_iff m w).1 hc)
    simp [this, h]

theorem baseline_spec (ties : TieOrder) (s : Store) :
    (s = [] → baseline ties s = []) ∧
      (s ≠ [] → ∃ u ∈ s, (∀ w ∈ s, strLt u.timestamp w.timestamp = false) ∧
        baseline ties s = u.newText) := by
  constructor
  · intro h; subst h; rfl
  · intro h
    cases hf : findLatest ties s with
    | none => exact absurd ((findLatest_eq_none ties s).1 hf) h
    | some u =>
      have := head_sortByTimestampDesc ties s u hf
      exact ⟨u, this.1, this.2, by simp [baseline, hf]⟩

/-- Where both texts have a token, the pieces `getWordDiff` works on are the words of the
handler, and the record of a save carries the lists of `getWordDiff`. -/
theorem summaryOf_getWordDiff (ties : TieOrder) (env : SaveEnv) (t : JsString) (s : Store)
    (hp : tokens (baseline ties s) ≠ []) (ht : tokens t ≠ []) :
    (summaryOf ties env t s).addedWords = (getWordDiff (baseline ties s) t).added ∧
      (summaryOf ties env t s).removedWords = (getWordDiff (baseline ties s) t).removed := by
  have e1 : split (trim (baseline ties s)) = toWords (baseline ties s) := by
    rw [split_trim, if_neg hp, toWords_eq_tokens]
  have e2 : split (trim t) = toWords t := by
    rw [split_trim, if_neg ht, toWords_eq_tokens]
  rw [getWordDiff_added, getWordDiff_removed, e1, e2]
  exact ⟨rfl, rfl⟩

/-- Claim C5: saving a non-empty text to the empty store stores the empty previous text, old length
0, the token count of the text as new length, all its tokens as added words and no removed
word. -/
theorem saveVersion_first (ties : TieOrder) (env : SaveEnv) (T : JsString) (hT : T ≠ []) :
    ∃ v, saveVersion ties env (.str T) [] = (.ok v, [v]) ∧
      v.previousText = [] ∧ v.oldLength = 0 ∧ v.newLength = (tokens T).length ∧
      v.addedWords = tokens T ∧ v.removedWords = [] ∧ v.newText = T := by
  refine ⟨summaryOf ties env T [], ?_, rfl, ?_, ?_, ?_, ?_, rfl⟩
  · rw [saveVersion_str ties env T [] hT]; rfl
  · show (toWords (baseline ties [])).length = 0
    rw [toWords_eq_tokens]; rfl
  · show (toWords T).length = _
    rw [toWords_eq_tokens]
  · show (toWords T).filter (fun w => !includes (toWords (baseline ties [])) w) = _
    rw [filter_not_includes_eq, toWords_eq_tokens, toWords_eq_tokens]
    have : tokens (baseline ties []) = [] := rfl
    rw [this]
    simp
  · show (toWords (baseline ties [])).filter (fun w => !includes (toWords T) w) = []
    rw [toWords_eq_tokens (baseline ties [])]; rfl

theorem saveVersion_first_witness :
    "a b c".toList ≠ [] ∧
    ∃ v, saveVersion naturalOrder envA (.str "a b c".toList) [] = (.ok v, [v]) ∧
      v.previousText = [] ∧ v.oldLength = 0 ∧ v.newLength = 3 ∧
      v.addedWords = ["a".toList, "b".toList, "c".toList] ∧ v.removedWords = [] := by
  refine ⟨by decide, ?_⟩
  obtain ⟨v, h1, h2, h3, h4, h5, h6, _⟩ :=
    saveVersion_first naturalOrder envA "a b c".toList (by decide)
  have ht : tokens "a b c".toList = ["a".toList, "b".toList, "c".toList] := by decide
  rw [ht] at h4 h5
  exact ⟨v, h1, h2, h3, h4, h5, h6⟩

/-- Claim C6: on a body field that is a string or nothing, the save answers 400 exactly when the
field is missing, null or the empty string, and then leaves the store as it was; every other
string, white space only included, is answered 200 and appends exactly one record. -/
theorem saveVersion_invalid_input (ties : TieOrder) (env : SaveEnv) (s : Store) :
    (∀ b : BodyField, (saveVersion ties env b s).1 = .badRequest ↔
      (b = .missing ∨ b = .null ∨ b = .str [])) ∧
    (∀ b : BodyField, (saveVersion ties env b s).1 = .badRequest → (saveVersion ties env b s).2 = s) ∧
    (∀ t : JsString, t ≠ [] → ∃ v, saveVersion ties env (.str t) s = (.ok v, s ++ [v]) ∧
      (saveVersion ties env (.str t) s).1.status = 200 ∧
      (saveVersion ties env (.str t) s).2.length = s.length + 1) := by
  refine ⟨?_, ?_, ?_⟩
  · intro b
    cases b with
    | missing => simp [saveVersion]
    | null => simp [saveVersion]
    | str t =>
      cases t with
      | nil => simp [saveVersion, BodyField.falsy]
      | cons c cs => rw [saveVersion_str ties env (c :: cs) s (by simp)]; simp
  · intro b hb
    cases b with
    | missing => rfl
    | null => rfl
    | str t =>
      cases t with
      | nil => rfl
      | cons c cs => rw [saveVersion_str ties env (c :: cs) s (by simp)] at hb; simp at hb
  · intro t ht
    rw [saveVersion_str ties env t s ht]
    exact ⟨_, rfl, rfl, by simp⟩

theorem saveVersion_invalid_input_witness :
    saveVersion naturalOrder envA (.str "".toList) [] = (.badRequest, []) ∧
    saveVersion naturalOrder envA .null [] = (.badRequest, []) ∧
    (∃ v, saveVersion naturalOrder envA (.str " ".toList) [] = (.ok v, [] ++ [v]) ∧
      (saveVersion naturalOrder envA (.str " ".toList) []).1.status = 200 ∧
      (saveVersion naturalOrder envA (.str " ".toList) []).2.length
        = ([] : Store).length + 1) :=
  ⟨by decide, by decide,
   (saveVersion_invalid_input naturalOrder envA []).2.2 " ".toList (by decide)⟩

/-- Claim C8: the record a save persists has as `previousText` the `newText` of a stored version
with the greatest timestamp (the empty string on an empty store), as `addedWords` the tokens
of `newText` absent from the tokens of `previousText`, in order and with duplicates, as
`removedWords` the tokens of `previousText` absent from those of `newText`, and as lengths
the two token counts. -/
theorem saveVersion_record (ties : TieOrder) (env : SaveEnv) (s : Store) (t : JsString) (ht : t ≠ []) :
    ∃ v, saveVersion ties env (.str t) s = (.ok v, s ++ [v]) ∧
      v.newText = t ∧
      (s = [] → v.previousText = []) ∧
      (s ≠ [] → ∃ u ∈ s, (∀ w ∈ s, strLt u.timestamp w.timestamp = false) ∧
        v.previousText = u.newText) ∧
      v.addedWords = (tokens t).filter (fun w => decide (w ∉ tokens v.previousText)) ∧
      v.removedWords = (tokens v.previousText).filter (fun w => decide (w ∉ tokens t)) ∧
      v.oldLength = (tokens v.previousText).length ∧
      v.newLength = (tokens t).length := by
  refine ⟨summaryOf ties env t s, saveVersion_str ties env t s ht, rfl, (baseline_spec ties s).1,
    (baseline_spec ties s).2, ?_, ?_, ?_, ?_⟩
  · show (toWords t).filter (fun w => !includes (toWords (baseline ties s)) w) = _
    rw [filter_not_includes_eq, toWords_eq_tokens, toWords_eq_tokens]; rfl
  · show (toWords (baseline ties s)).filter (fun w => !includes (toWords t) w) = _
    rw [filter_not_includes_eq, toWords_eq_tokens, toWords_eq_tokens]; rfl
  · show (toWords (baseline ties s)).length = _
    rw [toWords_eq_tokens]; rfl
  · show (toWords t).length = _
    rw [toWords_eq_tokens]

theorem saveVersion_record_witness :
    "hello world".toList ≠ [] ∧
    ∃ v, saveVersion naturalOrder envC (.str "hello world".toList) [helloVersion]
        = (.ok v, [helloVersion] ++ [v]) ∧
      v.previousText = "hello".toList ∧ v.addedWords = ["world".toList] ∧
      v.removedWords = [] ∧ v.oldLength = 1 ∧ v.newLength = 2 := by
  refine ⟨by decide, ?_⟩
  obtain ⟨v, h1, _, _, h4, h5, h6, h7, h8⟩ :=
    saveVersion_record naturalOrder envC [helloVersion] "hello world".toList (by decide)
  obtain ⟨u, hu, _, hp⟩ := h4 (by decide)
  have hu2 : u = helloVersion := by simpa using hu
  have hprev : v.previousText = "hello".toList := by rw [hp, hu2]; decide
  rw [hprev] at h5 h6 h7
  exact ⟨v, h1, hprev, by rw [h5]; decide, by rw [h6]; decide, by rw [h7]; decide,
    by rw [h8]; decide⟩

/-! ## Timestamps -/

theorem digitChar_toNat (n : Nat) : (digitChar n).toNat = 48 + n % 10 := by
  have h : n % 10 < 10 := Nat.mod_lt _ (by decide)
  unfold digitChar
  generalize n % 10 = k at h
  interval_cases k <;> rfl

theorem digitChar_ne_T (n : Nat) : digitChar n ≠ 'T' := by
  intro h
  have := congrArg Char.toNat h
  rw [digitChar_toNat] at this
  have h2 : ('T' : Char).toNat = 84 := by decide
  omega

theorem digitChar_congr (a b : Nat) (h : a % 10 = b % 10) : digitChar a = digitChar b := by
  unfold digitChar; rw [h]

/-- The stored timestamp is `YYYY-MM-DD HH:mm`. -/
theorem timestampOf_eq (d : Date) :
    timestampOf d =
      pad4 d.year ++ ('-' :: (pad2 d.month ++ ('-' :: (pad2 d.day ++ (Char.ofNat 32 ::
        (pad2 d.hours ++ (':' :: pad2 d.minutes))))))) := by
  simp [timestampOf, toISOString, slice, pad4, pad2, replaceFirst, digitChar_ne_T]

theorem timestampOf_sameMinute (a b : Date) (h : a.sameMinute b) :
    timestampOf a = timestampOf b := by
  obtain ⟨h1, h2, h3, h4, h5⟩ := h
  rw [timestampOf_eq, timestampOf_eq, h1, h2, h3, h4, h5]

theorem strLt_cons_same (c : Char) (r r' : JsString) :
    strLt (c :: r) (c :: r') = strLt r r' := by
  simp [strLt]

theorem strLt_append_same (p r r' : JsString) : strLt (p ++ r) (p ++ r') = strLt r r' := by
  induction p with
  | nil => rfl
  | cons c cs ih => rw [List.cons_append, List.cons_append, strLt_cons_same, ih]

theorem strLt_pad2 (x y : Nat) (r r' : JsString) (hxy : x < y) (hy : y < 100) :
    strLt (pad2 x ++ r) (pad2 y ++ r') = true := by
  simp only [pad2, List.cons_append, List.nil_append, strLt_cons, digitChar_toNat]
  by_cases h : x / 10 < y / 10
  · left; omega
  · right
    exact ⟨by omega, Or.inl (by omega)⟩

theorem pad2_mod (x : Nat) : pad2 x = pad2 (x % 100) := by
  unfold pad2
  rw [digitChar_congr (x / 10) (x % 100 / 10) (by omega),
    digitChar_congr x (x % 100) (by omega)]

theorem strLt_pad4 (x y : Nat) (r r' : JsString) (hxy : x < y) (hy : y < 10000) :
    strLt (pad4 x ++ r) (pad4 y ++ r') = true := by
  unfold pad4
  rw [List.append_assoc, List.append_assoc]
  by_cases h : x / 100 < y / 100
  · exact strLt_pad2 _ _ _ _ h (by omega)
  · have e : x / 100 = y / 100 := by omega
    rw [e, strLt_append_same, pad2_mod x, pad2_mod y]
    exact strLt_pad2 _ _ _ _ (by omega) (by omega)

/-- A later minute has a greater timestamp. -/
theorem strLt_timestampOf (a b : Date) (ha : a.Valid) (hb : b.Valid) (h : a.minuteLt b) :
    strLt (timestampOf a) (timestampOf b) = true := by
  rw [timestampOf_eq, timestampOf_eq]
  obtain ⟨_, _, _, _, _, _, _, _, _⟩ := ha
  obtain ⟨_, _, _, _, _, _, _, _, _⟩ := hb
  rcases h with h | ⟨e1, h⟩
  · exact strLt_pad4 _ _ _ _ h (by omega)
  rw [e1, strLt_append_same, strLt_cons_same]
  rcases h with h | ⟨e2, h⟩
  · exact strLt_pad2 _ _ _ _ h (by omega)
  rw [e2, strLt_append_same, strLt_cons_same]
  rcases h with h | ⟨e3, h⟩
  · exact strLt_pad2 _ _ _ _ h (by omega)
  rw [e3, strLt_append_same, strLt_cons_same]
  rcases h with h | ⟨e4, h⟩
  · exact strLt_pad2 _ _ _ _ h (by omega)
  rw [e4, strLt_append_same, strLt_cons_same]
  have := strLt_pad2 a.minutes b.minutes [] [] h (by omega)
  simpa using this

/-! ## ObjectId strings -/

theorem hexVal_hexDigit (n : Nat) : hexVal (hexDigit n) = some (n % 16) := by
  have h : n % 16 < 16 := Nat.mod_lt _ (by decide)
  unfold hexDigit
  generalize n % 16 = k at h
  interval_cases k <;> rfl

theorem length_hexN (w n : Nat) : (hexN w n).length = w := by
  induction w generalizing n with
  | zero => rfl
  | succ w ih => simp [hexN, ih]

theorem readHex_append (a b : JsString) : ∀ acc : Nat,
    readHex acc (a ++ b) = (readHex acc a).bind (fun x => readHex x b) := by
  induction a with
  | nil => intro acc; rfl
  | cons c cs ih =>
    intro acc
    simp only [List.cons_append, readHex]
    cases hexVal c with
    | none => rfl
    | some v => exact ih _

theorem readHex_hexN (w : Nat) : ∀ acc n : Nat,
    readHex acc (hexN w n) = some (acc * 16 ^ w + n % 16 ^ w) := by
  induction w with
  | zero => intro acc n; simp [hexN, readHex, Nat.mod_one]
  | succ w ih =>
    intro acc n
    rw [hexN, readHex_append, ih]
    simp only [Option.some_bind, readHex, hexVal_hexDigit]
    congr 1
    rw [pow_succ 16 w, Nat.mul_comm (16 ^ w) 16, Nat.mod_mul]
    ring

/-- The store reads the string of an ObjectId back as that ObjectId. -/
theorem castObjectId_toHex (o : ObjectId) (h : o < 16 ^ 24) :
    castObjectId (ObjectId.toHex o) = some o := by
  unfold castObjectId ObjectId.toHex
  rw [if_pos (length_hexN 24 o), readHex_hexN, Nat.mod_eq_of_lt h]
  simp

/-! ## `DELETE /version/:id` -/

theorem find_erase (p : Version → Bool) : ∀ (s : List Version) (v : Version),
    s.find? p = some v →
      ∃ l1 l2, s = l1 ++ v :: l2 ∧ s.eraseP p = l1 ++ l2 ∧ p v = true ∧
        ∀ x ∈ l1, p x = false := by
  intro s
  induction s with
  | nil => intro v h; simp at h
  | cons a rest ih =>
    intro v h
    by_cases ha : p a = true
    · rw [List.find?_cons_of_pos _ ha] at h
      injection h with h
      subst h
      exact ⟨[], rest, rfl, by simp [List.eraseP_cons_of_pos ha], ha, by simp⟩
    · rw [List.find?_cons_of_neg _ ha] at h
      obtain ⟨l1, l2, e1, e2, hv, hl⟩ := ih v h
      refine ⟨a :: l1, l2, by simp [e1], ?_, hv, ?_⟩
      · rw [List.eraseP_cons_of_neg ha, e2]; rfl
      · intro x hx
        rcases List.mem_cons.1 hx with rfl | hx
        · simpa using ha
        · exact hl x hx

theorem find_of_nodup (V : Version) : ∀ s : List Version,
    (s.map (fun v => v._id)).Nodup → V ∈ s →
      s.find? (fun v => v._id == V._id) = some V ∧
        ∀ x ∈ s.eraseP (fun v => v._id == V._id), x._id ≠ V._id := by
  intro s
  induction s with
  | nil => intro _ h; simp at h
  | cons a rest ih =>
    intro hn hV
    rw [List.map_cons, List.nodup_cons] at hn
    obtain ⟨hna, hnr⟩ := hn
    by_cases ha : a._id = V._id
    · have hVa : V = a := by
        rcases List.mem_cons.1 hV with h | h
        · exact h
        · exfalso
          apply hna
          rw [ha]
          exact List.mem_map.2 ⟨V, h, rfl⟩
      subst hVa
      constructor
      · simp
      · intro x hx
        rw [List.eraseP_cons_of_pos (by simp)] at hx
        intro hc
        apply hna
        rw [← hc]
        exact List.mem_map.2 ⟨x, hx, rfl⟩
    · have hVr : V ∈ rest := by
        rcases List.mem_cons.1 hV with h | h
        · exact absurd (by rw [h]) ha
        · exact h
      obtain ⟨i1, i2⟩ := ih hnr hVr
      constructor
      · rw [List.find?_cons_of_neg _ (by simpa using ha)]; exact i1
      · intro x hx
        rw [List.eraseP_cons_of_neg (by simpa using ha)] at hx
        rcases List.mem_cons.1 hx with rfl | hx
        · exact ha
        · exact i2 x hx

theorem deleteVersion_cast_none (param : JsString) (s : Store)
    (h : castObjectId param = none) : deleteVersion param s = (.serverError, s) := by
  simp [deleteVersion, h]

theorem deleteVersion_no_match (param : JsString) (s : Store) (o : ObjectId)
    (h : castObjectId param = some o) (hs : ∀ v ∈ s, v._id ≠ o) :
    deleteVersion param s = (.notFound, s) := by
  have hf : s.find? (fun v => v._id == o) = none := by
    rw [List.find?_eq_none]
    intro x hx
    simpa using hs x hx
  simp [deleteVersion, h, findByIdAndDelete, hf]

theorem deleteVersion_found (param : JsString) (s : Store) (o : ObjectId) (v : Version)
    (h : castObjectId param = some o) (hf : s.find? (fun v => v._id == o) = some v) :
    deleteVersion param s = (.ok v, s.eraseP (fun v => v._id == o)) := by
  simp [deleteVersion, h, findByIdAndDelete, hf]

theorem deleteVersion_ok_inv (param : JsString) (s s' : Store) (v : Version)
    (h : deleteVersion param s = (.ok v, s')) :
    ∃ o, castObjectId param = some o ∧ s.find? (fun v => v._id == o) = some v ∧
      s' = s.eraseP (fun v => v._id == o) := by
  unfold deleteVersion at h
  cases hc : castObjectId param with
  | none => rw [hc] at h; simp at h
  | some o =>
    rw [hc] at h
    simp only [findByIdAndDelete] at h
    cases hf : s.find? (fun v => v._id == o) with
    | none => rw [hf] at h; simp at h
    | some u =>
      rw [hf] at h
      simp at h
      exact ⟨o, rfl, by rw [← h.1]; exact hf, h.2.symm⟩

/-- A save with a fresh `_id` keeps the `_id`s pairwise different. -/
theorem saveVersion_nodup (ties : TieOrder) (env : SaveEnv) (b : BodyField) (s : Store)
    (hn : (s.map (fun v => v._id)).Nodup) (hf : env.docId ∉ s.map (fun v => v._id)) :
    ((saveVersion ties env b s).2.map (fun v => v._id)).Nodup := by
  cases b with
  | missing => exact hn
  | null => exact hn
  | str t =>
    cases t with
    | nil => exact hn
    | cons c cs =>
      rw [saveVersion_str ties env (c :: cs) s (by simp)]
      simp only [List.map_append, List.map_cons, List.map_nil]
      rw [List.nodup_append]
      refine ⟨hn, by simp, ?_⟩
      intro a ha hb
      have : a = env.docId := by simpa [summaryOf] using hb
      exact hf (this ▸ ha)

/-- A delete keeps the `_id`s pairwise different. -/
theorem deleteVersion_nodup (param : JsString) (s : Store)
    (hn : (s.map (fun v => v._id)).Nodup) :
    ((deleteVersion param s).2.map (fun v => v._id)).Nodup := by
  cases hr : deleteVersion param s with
  | mk r s' =>
    cases r with
    | ok v =>
      obtain ⟨o, _, _, he⟩ := deleteVersion_ok_inv param s s' v hr
      show (s'.map (fun v => v._id)).Nodup
      rw [he]
      exact hn.sublist ((List.eraseP_sublist s).map _)
    | badRequest =>
      cases hc : castObjectId param with
      | none => rw [deleteVersion_cast_none param s hc] at hr; cases hr
      | some o =>
        cases hf : s.find? (fun v => v._id == o) with
        | none =>
          have : deleteVersion param s = (.notFound, s) := by
            simp [deleteVersion, hc, findByIdAndDelete, hf]
          rw [this] at hr; cases hr
        | some u => rw [deleteVersion_found param s o u hc hf] at hr; cases hr
    | notFound =>
      cases hc : castObjectId param with
      | none => rw [deleteVersion_cast_none param s hc] at hr; cases hr
      | some o =>
        cases hf : s.find? (fun v => v._id == o) with
        | none =>
          have : deleteVersion param s = (.notFound, s) := by
            simp [deleteVersion, hc, findByIdAndDelete, hf]
          rw [this] at hr
          have := (Prod.mk.inj hr).2
          subst this
          exact hn
        | some u => rw [deleteVersion_found param s o u hc hf] at hr; cases hr
    | serverError =>
      cases hc : castObjectId param with
      | none =>
        rw [deleteVersion_cast_none param s hc] at hr
        have := (Prod.mk.inj hr).2
        subst this
        exact hn
      | some o =>
        cases hf : s.find? (fun v => v._id == o) with
        | none =>
          have : deleteVersion param s = (.notFound, s) := by
            simp [deleteVersion, hc, findByIdAndDelete, hf]
          rw [this] at hr; cases hr
        | some u => rw [deleteVersion_found param s o u hc hf] at hr; cases hr

/-! ## Stores of one and two records -/

theorem summaryOf_nil (ties : TieOrder) (env : SaveEnv) (t : JsString) :
    summaryOf ties env t [] = summaryOf naturalOrder env t [] := rfl

theorem summaryOf_singleton (ties : TieOrder) (env : SaveEnv) (t : JsString) (v : Version) :
    summaryOf ties env t [v] = summaryOf naturalOrder env t [v] := rfl

theorem listVersions_singleton (ties : TieOrder) (v : Version) :
    listVersions ties [v] = [v] := rfl

/-- Two records of equal timestamp are listed in the order of `ties`: the sort key does not
tell them apart. -/
theorem listVersions_pair_tie (ties : TieOrder) (a b : Version)
    (h : a.timestamp = b.timestamp) :
    listVersions ties [a, b] = if ties a b then [a, b] else [b, a] := by
  simp only [listVersions, sortByTimestampDesc, insertDesc]
  rw [h, strLt_irrefl]
  simp

/-- Two records of different timestamp are listed with the greater timestamp first, whatever
the order of equal keys. -/
theorem listVersions_pair_lt (ties : TieOrder) (a b : Version)
    (h : strLt a.timestamp b.timestamp = true) :
    listVersions ties [a, b] = [b, a] := by
  simp only [listVersions, sortByTimestampDesc, insertDesc]
  rw [if_pos h]

/-! ## Claims on the handlers -/

/-- Claim C1: at the first save the handler stores no removed word, while `getWordDiff` on the
stored texts reports the empty string as removed; after a save of white space only the
handler stores no added word, while `getWordDiff` reports the empty string as added. -/
theorem saveVersion_getWordDiff_eval :
    (∀ ties : TieOrder,
      saveVersion ties envA (.str "hello".toList) [] = (.ok helloVersion, [helloVersion])) ∧
    helloVersion.previousText = "".toList ∧
    helloVersion.addedWords = (getWordDiff helloVersion.previousText helloVersion.newText).added ∧
    helloVersion.removedWords = [] ∧
    (getWordDiff helloVersion.previousText helloVersion.newText).removed = ["".toList] ∧
    (∀ ties : TieOrder, (summaryOf ties envB " ".toList [helloVersion]).addedWords = []) ∧
    (getWordDiff "hello".toList " ".toList).added = ["".toList] := by
  refine ⟨fun ties => ?_, by decide, by decide, by decide, by decide, fun ties => ?_, by decide⟩
  · rw [saveVersion_str ties envA "hello".toList [] (by decide), summaryOf_nil]; rfl
  · rw [summaryOf_singleton]; decide

/-- Claim C3: two saves within one minute store the same timestamp, the only sort key, so the
list of the two records is whatever order the store gives to equal keys: the handler does
not put the newer record first.  In the order of the collection the older record comes
first, `[V1, V2]`, where the claim has `[V2, V1]`. -/
theorem listVersions_same_minute :
    clockA.Valid ∧ clockB.Valid ∧ clockA.le clockB ∧ clockA.sameMinute clockB ∧
    (∀ ties : TieOrder,
      saveVersion ties envA (.str "hello".toList) [] = (.ok helloVersion, [helloVersion])) ∧
    (∀ ties : TieOrder,
      saveVersion ties envB (.str "hello world".toList) [helloVersion] =
        (.ok helloWorldVersion, [helloVersion, helloWorldVersion])) ∧
    helloVersion.timestamp = "2025-11-04 22:37".toList ∧
    helloWorldVersion.timestamp = "2025-11-04 22:37".toList ∧
    (∀ ties : TieOrder, listVersions ties [helloVersion, helloWorldVersion] =
      if ties helloVersion helloWorldVersion then [helloVersion, helloWorldVersion]
      else [helloWorldVersion, helloVersion]) ∧
    listVersions naturalOrder [helloVersion, helloWorldVersion]
      = [helloVersion, helloWorldVersion] ∧
    listVersions reverseOrder [helloVersion, helloWorldVersion]
      = [helloWorldVersion, helloVersion] ∧
    [helloVersion, helloWorldVersion] ≠ [helloWorldVersion, helloVersion] := by
  refine ⟨by decide, by decide, by decide, by decide, fun ties => ?_, fun ties => ?_,
    by decide, by decide, fun ties => ?_, by decide, by decide, by decide⟩
  · rw [saveVersion_str ties envA "hello".toList [] (by decide), summaryOf_nil]; rfl
  · rw [saveVersion_str ties envB "hello world".toList _ (by decide), summaryOf_singleton]; rfl
  · exact listVersions_pair_tie ties _ _ (by decide)

/-- Two saves of non-empty texts `T1`, `T2` from the empty store give `V1`, `V2` with
`V2.previousText = T1`; each timestamp is the ISO time cut to the minute; when the second
time lies in a later minute than the first (years of four digits) the list is exactly
`[V2, V1]`, whatever the order of equal keys; within one minute the two timestamps are equal
and the list is in the order the store gives to equal keys. -/
theorem save_twice_listVersions (ties : TieOrder) (env1 env2 : SaveEnv) (T1 T2 : JsString)
    (h1 : T1 ≠ []) (h2 : T2 ≠ []) :
    ∃ V1 V2, saveVersion ties env1 (.str T1) [] = (.ok V1, [V1]) ∧
      saveVersion ties env2 (.str T2) [V1] = (.ok V2, [V1, V2]) ∧
      V2.previousText = T1 ∧
      V1.timestamp = timestampOf env1.now ∧ V2.timestamp = timestampOf env2.now ∧
      (env1.now.Valid → env2.now.Valid → env1.now.minuteLt env2.now →
        listVersions ties [V1, V2] = [V2, V1]) ∧
      (env1.now.sameMinute env2.now → V1.timestamp = V2.timestamp ∧
        listVersions ties [V1, V2] = if ties V1 V2 then [V1, V2] else [V2, V1]) := by
  refine ⟨summaryOf ties env1 T1 [], summaryOf ties env2 T2 [summaryOf ties env1 T1 []],
    by rw [saveVersion_str ties env1 T1 [] h1]; rfl,
    by rw [saveVersion_str ties env2 T2 _ h2]; rfl, rfl, rfl, rfl, ?_, ?_⟩
  · intro hv1 hv2 hlt
    exact listVersions_pair_lt ties _ _ (strLt_timestampOf _ _ hv1 hv2 hlt)
  · intro hs
    have ht : (summaryOf ties env1 T1 []).timestamp
        = (summaryOf ties env2 T2 [summaryOf ties env1 T1 []]).timestamp :=
      timestampOf_sameMinute _ _ hs
    exact ⟨ht, listVersions_pair_tie ties _ _ ht⟩

theorem save_twice_listVersions_later_minute :
    "hello".toList ≠ [] ∧ "hello world".toList ≠ [] ∧
    ∃ V1 V2, saveVersion reverseOrder envA (.str "hello".toList) [] = (.ok V1, [V1]) ∧
      saveVersion reverseOrder envC (.str "hello world".toList) [V1] = (.ok V2, [V1, V2]) ∧
      V2.previousText = "hello".toList ∧ listVersions reverseOrder [V1, V2] = [V2, V1] := by
  refine ⟨by decide, by decide, ?_⟩
  obtain ⟨V1, V2, a, b, c, _, _, d, _⟩ :=
    save_twice_listVersions reverseOrder envA envC "hello".toList "hello world".toList
      (by decide) (by decide)
  exact ⟨V1, V2, a, b, c, d (by decide) (by decide) (by decide)⟩

/-- Claim C4, as stated, fails: called with the field `id` of a stored record, the handler finds
no record (it looks `_id` up), answers 404 and the record stays listed. -/
theorem deleteVersion_by_id_field :
    (∀ ties : TieOrder,
      saveVersion ties envA (.str "hello".toList) [] = (.ok helloVersion, [helloVersion])) ∧
    helloVersion.id = "690a8f11c3a1b2d4e5f60001".toList ∧
    ObjectId.toHex helloVersion._id = "690a8f11c3a1b2d4e5f60002".toList ∧
    deleteVersion helloVersion.id [helloVersion] = (.notFound, [helloVersion]) ∧
    (∀ ties : TieOrder,
      helloVersion ∈ listVersions ties (deleteVersion helloVersion.id [helloVersion]).2) := by
  refine ⟨fun ties => ?_, by decide, by decide, by decide, fun ties => ?_⟩
  · rw [saveVersion_str ties envA "hello".toList [] (by decide), summaryOf_nil]; rfl
  · rw [listVersions, mem_sortByTimestampDesc]; decide

/-- Claim C4, amended: in a store whose records have pairwise different `_id`, for every record
`V`, the delete called with the string of `V._id` (the storage-internal identifier, a
twelve-byte ObjectId) succeeds, returns `V`, and `V` is not in the list afterwards. -/
theorem deleteVersion_by_storage_id (ties : TieOrder) (s : Store) (V : Version) (hV : V ∈ s)
    (hn : (s.map (fun v => v._id)).Nodup) (hb : V._id < 16 ^ 24) :
    ∃ s', deleteVersion (ObjectId.toHex V._id) s = (.ok V, s') ∧ V ∉ listVersions ties s' := by
  obtain ⟨hf, he⟩ := find_of_nodup V s hn hV
  refine ⟨_, deleteVersion_found _ s V._id V (castObjectId_toHex _ hb) hf, ?_⟩
  intro hmem
  rw [listVersions, mem_sortByTimestampDesc] at hmem
  exact he V hmem rfl

theorem deleteVersion_by_storage_id_witness :
    ∃ s', deleteVersion (ObjectId.toHex helloVersion._id) [helloVersion, helloWorldVersion]
        = (.ok helloVersion, s') ∧ helloVersion ∉ listVersions naturalOrder s' :=
  deleteVersion_by_storage_id naturalOrder [helloVersion, helloWorldVersion] helloVersion
    (by decide) (by decide) (by decide)

/-- Claim C9, as stated, fails: an identifier that is no ObjectId string matches no record, and
the handler answers 500, not 404. -/
theorem deleteVersion_malformed_id :
    castObjectId "abc".toList = none ∧
    deleteVersion "abc".toList [helloVersion] = (.serverError, [helloVersion]) ∧
    (deleteVersion "abc".toList [helloVersion]).1.status = 500 ∧
    (deleteVersion "abc".toList [helloVersion]).1 ≠ .notFound ∧
    deleteVersion "abc".toList [] = (.serverError, []) := by
  decide

/-- Claim C9, amended: an identifier that is an ObjectId string and is the `_id` of no stored
record is answered 404 and the store is unchanged; an identifier that is no ObjectId string
is answered 500 and the store is unchanged; a successful delete removes exactly one record,
the returned one, and leaves every other record as it was, in place; every answer other than
success leaves the store unchanged. -/
theorem deleteVersion_outcomes (param : JsString) (s : Store) :
    (∀ o, castObjectId param = some o → (∀ v ∈ s, v._id ≠ o) →
      deleteVersion param s = (.notFound, s)) ∧
    (castObjectId param = none → deleteVersion param s = (.serverError, s)) ∧
    (∀ v s', deleteVersion param s = (.ok v, s') →
      ∃ l1 l2, s = l1 ++ v :: l2 ∧ s' = l1 ++ l2 ∧ s'.length + 1 = s.length) ∧
    (∀ r s', deleteVersion param s = (r, s') → (∀ v, r ≠ .ok v) → s' = s) := by
  refine ⟨fun o h hs => deleteVersion_no_match param s o h hs,
    deleteVersion_cast_none param s, ?_, ?_⟩
  · intro v s' h
    obtain ⟨o, _, hf, he⟩ := deleteVersion_ok_inv param s s' v h
    obtain ⟨l1, l2, e1, e2, _, _⟩ := find_erase _ s v hf
    refine ⟨l1, l2, e1, by rw [he, e2], ?_⟩
    rw [he, e2, e1]
    simp
    omega
  · intro r s' h hr
    cases hc : castObjectId param with
    | none =>
      rw [deleteVersion_cast_none param s hc] at h
      exact (Prod.mk.inj h).2.symm
    | some o =>
      cases hf : s.find? (fun v => v._id == o) with
      | none =>
        have : deleteVersion param s = (.notFound, s) := by
          simp [deleteVersion, hc, findByIdAndDelete, hf]
        rw [this] at h
        exact (Prod.mk.inj h).2.symm
      | some u =>
        rw [deleteVersion_found param s o u hc hf] at h
        exact absurd (Prod.mk.inj h).1.symm (hr u)

theorem deleteVersion_outcomes_witness :
    deleteVersion "690a8f11c3a1b2d4e5f60001".toList [helloVersion, helloWorldVersion]
      = (.notFound, [helloVersion, helloWorldVersion]) ∧
    deleteVersion "690a8f11c3a1b2d4e5f60002".toList [helloVersion, helloWorldVersion]
      = (.ok helloVersion, [helloWorldVersion]) ∧
    ∃ l1 l2, [helloVersion, helloWorldVersion] = l1 ++ helloVersion :: l2 ∧
      [helloWorldVersion] = l1 ++ l2 ∧
      [helloWorldVersion].length + 1 = [helloVersion, helloWorldVersion].length :=
  ⟨(deleteVersion_outcomes "690a8f11c3a1b2d4e5f60001".toList
      [helloVersion, helloWorldVersion]).1 0x690a8f11c3a1b2d4e5f60001 (by decide) (by decide),
   by decide,
   (deleteVersion_outcomes "690a8f11c3a1b2d4e5f60002".toList
      [helloVersion, helloWorldVersion]).2.2.1 helloVersion [helloWorldVersion] (by decide)⟩
end InternTest
